import Mathlib

/-
Verification of the bumblebee JSON transformer (rust-playground/bumblebee).

This file gives a shallow embedding of the library's core data model and
algorithms, translated from the Rust sources:

  * src/namespace.rs : path segments ("Namespace") and the path parser;
  * src/tree.rs      : the flat arena of rule nodes and the insertion
                       algorithm (Arena::add / Arena::reindex);
  * src/rules.rs     : compiled rules (Source / Destination / Transform),
                       the flatten engine and the destination-prefix walker
                       get_last, and the rule compiler Transform::parse;
  * src/transformer.rs : the Mode policy and the evaluator
                       (transform / transform_recursive).

Modelling conventions:
  * serde_json::Value is the inductive Json below; numbers are carried
    opaquely (the transformer never computes with them, only clones them),
    so they are modelled as Int.
  * serde_json::Map is modelled as an association list (JMap) with
    replace-in-place insert; the claims proved here do not depend on the
    map's key ordering policy, only on lookup/insert semantics.
  * Rust &str values that the parser slices are modelled as List Char;
    ids assembled from them are Lean Strings.
  * A Rust panic (Option::unwrap / as_object_mut().unwrap() on a non-object)
    is modelled as Option.none; the Result error channel is modelled as
    Except Error, so a fallible Rust fn returning Result<T> becomes
    Option (Except Error T), with none = panic, .error = Err, .ok = Ok.
  * Box<dyn StringManipulation> is modelled as a function String → String;
    Box<dyn Rule> is modelled by a type parameter ρ together with an
    apply function passed to the evaluator.
-/

namespace Bumblebee

/-! ## Error type (src/errors.rs)

The Io/Json variants carry external error payloads irrelevant to the core;
the ParseIntError payload of InvalidNamespaceArrayIndex is dropped. -/

inductive Error where
  | io
  | json
  | invalidSourceValue (msg : String)
  | invalidNamespace (msg : String)
  | invalidNamespaceArrayIndex
  | rule (msg : String)
deriving DecidableEq, Repr

/-! ## Path segments (src/namespace.rs, enum Namespace) -/

inductive Namespace where
  | object (id : String)
  | array (id : String) (index : Nat)
deriving DecidableEq, Repr

namespace Namespace

def id : Namespace → String
  | .object i => i
  | .array i _ => i

def isObject : Namespace → Bool
  | .object _ => true
  | _ => false

def isArray : Namespace → Bool
  | .array _ _ => true
  | _ => false

end Namespace

/-! ## The path parser (Namespace::parse)

Rust splits the input at `"."` (str::split), splits each piece at `"]"`
(str::split_terminator, which drops one trailing empty piece), and parses
each resulting piece: if it contains `'['`, the text before the bracket is
the id and the text after it must parse as a usize. -/

/-- `str::split` with a one-character pattern, over `List Char`.
Splitting the empty string yields one empty piece, as in Rust. -/
def splitListOn (sep : Char) : List Char → List (List Char)
  | [] => [[]]
  | c :: rest =>
    let r := splitListOn sep rest
    if c = sep then [] :: r
    else
      match r with
      | p :: ps => (c :: p) :: ps
      | [] => [[c]]

/-- `str::split_terminator` with a one-character pattern: like split, but a
single trailing empty piece is dropped (so the empty string yields no
pieces at all). -/
def splitTerminatorList (sep : Char) (s : List Char) : List (List Char) :=
  let parts := splitListOn sep s
  match parts.getLast? with
  | some [] => parts.dropLast
  | _ => parts

/-- Decimal digits of a `usize` literal; `none` on a non-digit.
Rust's `usize::from_str` also allows one leading `'+'` (handled by the
caller `parseUsize`); overflow is not modelled. -/
def parseDigits : List Char → Option Nat → Option Nat
  | [], acc => acc
  | c :: rest, acc =>
    if c.isDigit then
      parseDigits rest (some ((acc.getD 0) * 10 + (c.toNat - 48)))
    else none

/-- `str::parse::<usize>`: an optional leading `'+'` followed by at least
one decimal digit. -/
def parseUsize (cs : List Char) : Option Nat :=
  match cs with
  | '+' :: rest => parseDigits rest none
  | _ => parseDigits cs none

/-- Splits a piece at its first `'['` (Rust `str::find("[")` plus slicing):
returns `some (before, after)` when a bracket is present. -/
def breakAtBracket : List Char → Option (List Char × List Char)
  | [] => none
  | c :: rest =>
    if c = '[' then some ([], rest)
    else (breakAtBracket rest).map (fun p => (c :: p.1, p.2))

/-- Parsing of one piece inside `Namespace::parse`'s `map` closure. -/
def parsePiece (cs : List Char) : Except Error Namespace :=
  match breakAtBracket cs with
  | some (idc, idxc) =>
    match parseUsize idxc with
    | some n => .ok (.array (String.mk idc) n)
    | none => .error .invalidNamespaceArrayIndex
  | none => .ok (.object (String.mk cs))

/-- `Namespace::parse` (src/namespace.rs lines 59-78). -/
def Namespace.parse (input : String) : Except Error (List Namespace) :=
  ((splitListOn '.' input.toList).flatMap (splitTerminatorList ']')).mapM parsePiece

/-! ## Tree values (serde_json::Value) -/

inductive Json where
  | null
  | bool (b : Bool)
  | num (n : Int)
  | str (s : String)
  | arr (elems : List Json)
  | obj (entries : List (String × Json))

/-- serde_json::Map, as an association list. -/
abbrev JMap := List (String × Json)

/-- Map::get. -/
def lookupJ : JMap → String → Option Json
  | [], _ => none
  | (k, v) :: rest, key => if k = key then some v else lookupJ rest key

/-- Map::insert: replaces the value when the key is present, otherwise
appends the new entry. -/
def insertJ : JMap → String → Json → JMap
  | [], k, v => [(k, v)]
  | (k', v') :: rest, k, v =>
    if k' = k then (k, v) :: rest else (k', v') :: insertJ rest k v

/-- Value::get with a string index: `some` only on objects. -/
def jGet : Json → String → Option Json
  | .obj m, i => lookupJ m i
  | _, _ => none

/-- Value::as_array. -/
def asArr : Json → Option (List Json)
  | .arr xs => some xs
  | _ => none

/-! ## The rule arena (src/tree.rs)

`Node` and `Arena` are parameterized by the rule type ρ, modelling
`Box<dyn Rule>`. The `children` field is the `(start, end)` index range of
the node's direct children inside the flat vector. -/

inductive Node (ρ : Type) where
  | object (id : String) (children : Option (Nat × Nat)) (rules : Option (List ρ))
  | array (index : Nat) (id : String) (children : Option (Nat × Nat)) (rules : Option (List ρ))

variable {ρ : Type}

namespace Node

def childrenOf : Node ρ → Option (Nat × Nat)
  | .object _ c _ => c
  | .array _ _ c _ => c

def rulesOf : Node ρ → Option (List ρ)
  | .object _ _ r => r
  | .array _ _ _ r => r

def setChildren (c : Option (Nat × Nat)) : Node ρ → Node ρ
  | .object i _ r => .object i c r
  | .array n i _ r => .array n i c r

/-- Appending a rule to a node's rule list (the tail of `Arena::add`). -/
def pushRule (rl : ρ) : Node ρ → Node ρ
  | .object i c r => .object i c (some ((r.getD []) ++ [rl]))
  | .array n i c r => .array n i c (some ((r.getD []) ++ [rl]))

/-- The child-matching test inside the scan loops of `Arena::add`: same
kind and id, and for Array kind also the same index. -/
def nsMatches (ns : Namespace) : Node ρ → Bool
  | .object i _ _ => i = ns.id && ns.isObject
  | .array n i _ _ =>
    i = ns.id && ns.isArray && (match ns with
      | .array _ m => n = m
      | _ => false)

end Node

structure Arena (ρ : Type) where
  tree : List (Node ρ)

/-- `Arena::default()`: a single root node, Object with empty id. -/
def Arena.mkDefault : Arena ρ := ⟨[Node.object "" none none]⟩

/-- In-place update of the element at an index (a Rust `get_mut`). -/
def modifyAt : Nat → (Node ρ → Node ρ) → List (Node ρ) → List (Node ρ)
  | _, _, [] => []
  | 0, f, x :: xs => f x :: xs
  | n + 1, f, x :: xs => x :: modifyAt n f xs

/-- The ripple-insert of `Arena::reindex`: for positions `≥ idx` each entry
is displaced one slot to the right and the carried node ends up pushed at
the back, i.e. a vector insert at `idx`; if `idx` is past the end, the
node is simply pushed at the back. -/
def insertRipple : Nat → Node ρ → List (Node ρ) → List (Node ρ)
  | 0, nd, t => nd :: t
  | _ + 1, nd, [] => [nd]
  | n + 1, nd, x :: xs => x :: insertRipple n nd xs

/-- The range shift in `Arena::reindex`'s first loop: any node whose
children range starts at or after the insertion index has both bounds
moved up by one. -/
def shiftNode (idx : Nat) (nd : Node ρ) : Node ρ :=
  match nd.childrenOf with
  | some (s, e) => if s ≥ idx then nd.setChildren (some (s + 1, e + 1)) else nd
  | none => nd

/-- The parent update at the end of `Arena::reindex`: extend an existing
range's end by one, or create the singleton range at the insertion index. -/
def bumpParent (idx : Nat) (nd : Node ρ) : Node ρ :=
  match nd.childrenOf with
  | some (s, e) => nd.setChildren (some (s, e + 1))
  | none => nd.setChildren (some (idx, idx))

/-- `Arena::reindex` (src/tree.rs lines 210-256). -/
def reindex (parentIdx : Option Nat) (idx : Nat) (nd : Node ρ) (t : List (Node ρ)) :
    List (Node ρ) :=
  let t2 := insertRipple idx nd (t.map (shiftNode idx))
  match parentIdx with
  | some p => modifyAt p (bumpParent idx) t2
  | none => t2

/-- Scan of a child range `i .. i+fuel-1` for a matching child (the inner
`for idx in *start..=*end` loops of `Arena::add`); first match wins. The
Rust code unwraps the node lookup, which cannot fail on a well-formed
arena; a missing node is skipped here. -/
def findChildFrom (t : List (Node ρ)) (i fuel : Nat) (ns : Namespace) : Option Nat :=
  match fuel with
  | 0 => none
  | f + 1 =>
    match t.get? i with
    | some nd => if nd.nsMatches ns then some i else findChildFrom t (i + 1) f ns
    | none => findChildFrom t (i + 1) f ns

/-- The fresh node built for a path segment in `Arena::add` (children and
rules both None). -/
def newNode (ns : Namespace) : Node ρ :=
  match ns with
  | .object i => .object i none none
  | .array i n => .array n i none none

/-- One iteration of the `'outer` loop of `Arena::add`: descend into a
matching child, or create the child (at `end + 1`, or at the back when the
current node has no children) via `reindex`. The Rust code unwraps the
lookup of the current node `n`; that lookup cannot fail during a well-formed
walk, and a failed lookup leaves the state unchanged here. -/
def addStep (t : List (Node ρ)) (n : Nat) (ns : Namespace) : Nat × List (Node ρ) :=
  match t.get? n with
  | none => (n, t)
  | some nd =>
    match nd.childrenOf with
    | some (s, e) =>
      match findChildFrom t s (e + 1 - s) ns with
      | some idx => (idx, t)
      | none => (e + 1, reindex (some n) (e + 1) (newNode ns) t)
    | none => (t.length, reindex (some n) t.length (newNode ns) t)

/-- The full `'outer` loop: walk/extend the tree along the path, starting
from node index `n`. -/
def addPath (t : List (Node ρ)) (n : Nat) : List Namespace → Nat × List (Node ρ)
  | [] => (n, t)
  | ns :: rest =>
    let st := addStep t n ns
    addPath st.2 st.1 rest

/-- `Arena::add` (src/tree.rs lines 42-207): walk/extend along the path
from the root, then append the rule to the final node. -/
def Arena.add (a : Arena ρ) (path : List Namespace) (rl : ρ) : Arena ρ :=
  let st := addPath a.tree 0 path
  ⟨modifyAt st.1 (Node.pushRule rl) st.2⟩

/-- Folding a build sequence of `add` calls over the default arena. -/
def buildArena (calls : List (List Namespace × ρ)) : Arena ρ :=
  calls.foldl (fun a c => a.add c.1 c.2) Arena.mkDefault

/-! ## The contiguity invariant (spec §8, I-contiguous / I2) -/

/-- The children range recorded at index `i` of the flat tree. -/
def childrenAt (t : List (Node ρ)) (i : Nat) : Option (Nat × Nat) :=
  match t[i]? with
  | some nd => nd.childrenOf
  | none => none

/-- Invariant I2: every recorded child range `(s, e)` satisfies `s ≤ e`,
stays within the tree (`e < length`), and lies strictly after its parent
(`i < s`, so in particular the root is nobody's child); and the ranges of
distinct parents are pairwise disjoint, so `s..=e` are exactly the direct
children of the node recording the range. -/
def Contiguous (t : List (Node ρ)) : Prop :=
  (∀ i s e, childrenAt t i = some (s, e) → s ≤ e ∧ e < t.length ∧ i < s) ∧
  (∀ i j si ei sj ej, i ≠ j → childrenAt t i = some (si, ei) →
    childrenAt t j = some (sj, ej) → ei < sj ∨ ej < si)

/-! ### Positional lemmas for the list surgery done by `reindex` -/

theorem modifyAt_length (i : Nat) (f : Node ρ → Node ρ) (t : List (Node ρ)) :
    (modifyAt i f t).length = t.length := by
  induction t generalizing i with
  | nil => cases i <;> rfl
  | cons x xs ih => cases i <;> simp [modifyAt, ih]

theorem get?_modifyAt_self (i : Nat) (f : Node ρ → Node ρ) (t : List (Node ρ)) :
    (modifyAt i f t)[i]? = t[i]?.map f := by
  induction t generalizing i with
  | nil => cases i <;> rfl
  | cons x xs ih => cases i <;> simp [modifyAt, ih]

theorem get?_modifyAt_ne (i j : Nat) (hij : j ≠ i) (f : Node ρ → Node ρ)
    (t : List (Node ρ)) : (modifyAt i f t)[j]? = t[j]? := by
  induction t generalizing i j with
  | nil => cases i <;> rfl
  | cons x xs ih =>
    cases i with
    | zero =>
      cases j with
      | zero => exact absurd rfl hij
      | succ j => simp [modifyAt]
    | succ i =>
      cases j with
      | zero => simp [modifyAt]
      | succ j => simpa [modifyAt] using ih i j (by omega)

theorem insertRipple_nil (idx : Nat) (nd : Node ρ) :
    insertRipple idx nd [] = [nd] := by
  cases idx <;> rfl

theorem insertRipple_length (idx : Nat) (nd : Node ρ) (t : List (Node ρ))
    (h : idx ≤ t.length) : (insertRipple idx nd t).length = t.length + 1 := by
  induction t generalizing idx with
  | nil => simp [insertRipple_nil]
  | cons x xs ih =>
    cases idx with
    | zero => rfl
    | succ i => simp at h; simp [insertRipple, ih i h]

theorem get?_insertRipple_lt (idx j : Nat) (nd : Node ρ) (t : List (Node ρ))
    (hj : j < idx) (h : idx ≤ t.length) :
    (insertRipple idx nd t)[j]? = t[j]? := by
  induction t generalizing idx j with
  | nil => simp at h; omega
  | cons x xs ih =>
    cases idx with
    | zero => omega
    | succ i =>
      cases j with
      | zero => simp [insertRipple]
      | succ j => simp at h; simpa [insertRipple] using ih i j (by omega) h

theorem get?_insertRipple_self (idx : Nat) (nd : Node ρ) (t : List (Node ρ))
    (h : idx ≤ t.length) : (insertRipple idx nd t)[idx]? = some nd := by
  induction t generalizing idx with
  | nil => simp at h; simp [h, insertRipple]
  | cons x xs ih =>
    cases idx with
    | zero => rfl
    | succ i => simp at h; simpa [insertRipple] using ih i h

theorem get?_insertRipple_gt (idx j : Nat) (nd : Node ρ) (t : List (Node ρ))
    (hj : idx ≤ j) (h : idx ≤ t.length) :
    (insertRipple idx nd t)[j + 1]? = t[j]? := by
  induction t generalizing idx j with
  | nil => simp at h; subst h; simp [insertRipple]
  | cons x xs ih =>
    cases idx with
    | zero => simp [insertRipple]
    | succ i =>
      cases j with
      | zero => omega
      | succ j => simp at h; simpa [insertRipple] using ih i j (by omega) h

theorem childrenOf_setChildren (c : Option (Nat × Nat)) (nd : Node ρ) :
    (nd.setChildren c).childrenOf = c := by
  cases nd <;> rfl

theorem childrenOf_pushRule (rl : ρ) (nd : Node ρ) :
    (nd.pushRule rl).childrenOf = nd.childrenOf := by
  cases nd <;> rfl

theorem childrenOf_newNode (ns : Namespace) :
    (newNode (ρ := ρ) ns).childrenOf = none := by
  cases ns <;> rfl

/-- The effect of `shiftNode` on the recorded range. -/
def shiftR (idx : Nat) (o : Option (Nat × Nat)) : Option (Nat × Nat) :=
  o.map (fun p => if p.1 ≥ idx then (p.1 + 1, p.2 + 1) else p)

theorem childrenOf_shiftNode (idx : Nat) (nd : Node ρ) :
    (shiftNode idx nd).childrenOf = shiftR idx nd.childrenOf := by
  unfold shiftNode shiftR
  match h : nd.childrenOf with
  | none => simp [h]
  | some (s, e) =>
    by_cases hs : s ≥ idx <;> simp [h, hs, childrenOf_setChildren]

theorem childrenAt_def (t : List (Node ρ)) (i : Nat) :
    childrenAt t i = (t[i]?).bind Node.childrenOf := by
  unfold childrenAt; cases t[i]? <;> rfl

/-! ### How `reindex` transforms the recorded ranges, position by position -/

theorem reindex_length (t : List (Node ρ)) (p idx : Nat) (nd : Node ρ)
    (hlen : idx ≤ t.length) :
    (reindex (some p) idx nd t).length = t.length + 1 := by
  have hu : idx ≤ (t.map (shiftNode idx)).length := by simpa using hlen
  simp [reindex, modifyAt_length, insertRipple_length _ _ _ hu]

theorem childrenAt_reindex_parent (t : List (Node ρ)) (p idx : Nat) (nd : Node ρ)
    (hple : p < idx) (hlen : idx ≤ t.length) (hp : p < t.length)
    (hps : ∀ s e, childrenAt t p = some (s, e) → s < idx) :
    childrenAt (reindex (some p) idx nd t) p =
      some ((childrenAt t p).elim (idx, idx) (fun se => (se.1, se.2 + 1))) := by
  have hu : idx ≤ (t.map (shiftNode idx)).length := by simpa using hlen
  obtain ⟨nd0, ht⟩ : ∃ nd0, t[p]? = some nd0 := by
    exact ⟨t[p], List.getElem?_eq_getElem hp⟩
  simp only [reindex]
  rw [childrenAt_def, get?_modifyAt_self,
    get?_insertRipple_lt _ _ _ _ hple hu, List.getElem?_map, ht]
  have hca : childrenAt t p = nd0.childrenOf := by
    rw [childrenAt_def, ht]; rfl
  cases hc : nd0.childrenOf with
  | none =>
    simp [bumpParent, childrenOf_shiftNode, hc, shiftR,
      childrenOf_setChildren, hca]
  | some se =>
    obtain ⟨s, e⟩ := se
    have hs : ¬ s ≥ idx := by
      have := hps s e (by rw [hca, hc])
      omega
    simp [bumpParent, childrenOf_shiftNode, hc, shiftR, hs,
      childrenOf_setChildren, hca]

theorem childrenAt_reindex_lt (t : List (Node ρ)) (p idx j : Nat) (nd : Node ρ)
    (hjp : j ≠ p) (hj : j < idx) (hlen : idx ≤ t.length) :
    childrenAt (reindex (some p) idx nd t) j = shiftR idx (childrenAt t j) := by
  have hu : idx ≤ (t.map (shiftNode idx)).length := by simpa using hlen
  simp only [reindex]
  rw [childrenAt_def, get?_modifyAt_ne _ _ hjp,
    get?_insertRipple_lt _ _ _ _ hj hu, List.getElem?_map, childrenAt_def]
  cases t[j]? <;> simp [childrenOf_shiftNode, shiftR]

theorem childrenAt_reindex_self (t : List (Node ρ)) (p idx : Nat) (nd : Node ρ)
    (hip : idx ≠ p) (hlen : idx ≤ t.length) :
    childrenAt (reindex (some p) idx nd t) idx = nd.childrenOf := by
  have hu : idx ≤ (t.map (shiftNode idx)).length := by simpa using hlen
  simp only [reindex]
  rw [childrenAt_def, get?_modifyAt_ne _ _ hip,
    get?_insertRipple_self _ _ _ hu]
  rfl

theorem childrenAt_reindex_gt (t : List (Node ρ)) (p idx j : Nat) (nd : Node ρ)
    (hj : idx ≤ j) (hjp : j + 1 ≠ p) (hlen : idx ≤ t.length) :
    childrenAt (reindex (some p) idx nd t) (j + 1) = shiftR idx (childrenAt t j) := by
  have hu : idx ≤ (t.map (shiftNode idx)).length := by simpa using hlen
  simp only [reindex]
  rw [childrenAt_def, get?_modifyAt_ne _ _ hjp,
    get?_insertRipple_gt _ _ _ _ hj hu, List.getElem?_map, childrenAt_def]
  cases t[j]? <;> simp [childrenOf_shiftNode, shiftR]

theorem childrenAt_lt_length (t : List (Node ρ)) (i : Nat) (c : Nat × Nat)
    (h : childrenAt t i = some c) : i < t.length := by
  rw [childrenAt_def] at h
  by_contra hlt
  push_neg at hlt
  rw [List.getElem?_eq_none hlt] at h
  cases h

/-! ### `reindex` preserves the contiguity invariant

The insertion index is `e + 1` for a parent with children `(s, e)`, or
`tree.len()` for a childless parent; in either case no recorded range
straddles the insertion point (a straddling range would have to overlap
the parent's own range), so every range either stays put or is shifted
intact — exactly the argument of spec §4.3. -/

theorem contiguous_reindex (t : List (Node ρ)) (p idx : Nat) (ns : Namespace)
    (H : Contiguous t) (hp : p < t.length)
    (hcase : (∃ s0 e0, childrenAt t p = some (s0, e0) ∧ idx = e0 + 1) ∨
      (childrenAt t p = none ∧ idx = t.length)) :
    Contiguous (reindex (some p) idx (newNode ns) t) ∧
      (reindex (some p) idx (newNode ns) t).length = t.length + 1 := by
  obtain ⟨HR, HD⟩ := H
  have hlen : idx ≤ t.length := by
    rcases hcase with ⟨s0, e0, hc, hidx⟩ | ⟨hc, hidx⟩
    · have := HR p s0 e0 hc; omega
    · omega
  have hple : p < idx := by
    rcases hcase with ⟨s0, e0, hc, hidx⟩ | ⟨hc, hidx⟩
    · have := HR p s0 e0 hc; omega
    · omega
  have hps : ∀ s e, childrenAt t p = some (s, e) → s < idx := by
    intro s e hc
    rcases hcase with ⟨s0, e0, hc0, hidx⟩ | ⟨hc0, hidx⟩
    · rw [hc0] at hc
      simp only [Option.some.injEq, Prod.mk.injEq] at hc
      have := HR p s0 e0 hc0; omega
    · rw [hc0] at hc; cases hc
  have hnost : ∀ j s e, childrenAt t j = some (s, e) → e < idx ∨ idx ≤ s := by
    intro j s e hc
    rcases hcase with ⟨s0, e0, hc0, hidx⟩ | ⟨hc0, hidx⟩
    · by_cases hjp : j = p
      · subst hjp
        rw [hc0] at hc
        simp only [Option.some.injEq, Prod.mk.injEq] at hc
        omega
      · by_contra hcon
        push_neg at hcon
        have h1 := HD j p s e s0 e0 hjp hc hc0
        have h3 := HR j s e hc
        have h4 := HR p s0 e0 hc0
        omega
    · have := HR j s e hc; omega
  set r := reindex (some p) idx (newNode ns) t with hr
  have rlen : r.length = t.length + 1 := reindex_length _ _ _ _ hlen
  -- per-position characterization of the ranges recorded in the new tree
  have hchar : ∀ j sj ej, childrenAt r j = some (sj, ej) →
      (j = p ∧
        ((∃ s0 e0, childrenAt t p = some (s0, e0) ∧ sj = s0 ∧ ej = e0 + 1) ∨
         (childrenAt t p = none ∧ sj = idx ∧ ej = idx))) ∨
      (j ≠ p ∧ ∃ q s e, childrenAt t q = some (s, e) ∧ q ≠ p ∧
        ((j < idx ∧ q = j) ∨ (idx < j ∧ q = j - 1)) ∧
        ((idx ≤ s ∧ sj = s + 1 ∧ ej = e + 1) ∨ (e < idx ∧ sj = s ∧ ej = e))) := by
    intro j sj ej hc
    by_cases hjp : j = p
    · subst hjp
      left
      refine ⟨rfl, ?_⟩
      rw [childrenAt_reindex_parent t j idx _ hple hlen hp hps] at hc
      cases hct : childrenAt t j with
      | none =>
        rw [hct] at hc
        simp only [Option.elim, Option.some.injEq, Prod.mk.injEq] at hc
        exact Or.inr ⟨rfl, hc.1.symm, hc.2.symm⟩
      | some se =>
        obtain ⟨s0, e0⟩ := se
        rw [hct] at hc
        simp only [Option.elim, Option.some.injEq, Prod.mk.injEq] at hc
        exact Or.inl ⟨s0, e0, rfl, hc.1.symm, hc.2.symm⟩
    · right
      refine ⟨hjp, ?_⟩
      by_cases hji : j = idx
      · subst hji
        rw [childrenAt_reindex_self t p j _ (by omega) hlen,
          childrenOf_newNode] at hc
        cases hc
      · by_cases hlt : j < idx
        · rw [childrenAt_reindex_lt t p idx j _ hjp hlt hlen] at hc
          cases hct : childrenAt t j with
          | none => rw [hct] at hc; cases hc
          | some se =>
            obtain ⟨s, e⟩ := se
            rw [hct] at hc
            simp only [shiftR, Option.map, Option.some.injEq] at hc
            refine ⟨j, s, e, hct, hjp, Or.inl ⟨hlt, rfl⟩, ?_⟩
            by_cases hs : s ≥ idx
            · rw [if_pos hs] at hc
              simp only [Prod.mk.injEq] at hc
              exact Or.inl ⟨hs, hc.1.symm, hc.2.symm⟩
            · rw [if_neg hs] at hc
              simp only [Prod.mk.injEq] at hc
              rcases hnost j s e hct with h | h
              · exact Or.inr ⟨h, hc.1.symm, hc.2.symm⟩
              · omega
        · have hgt : idx < j := by omega
          have hj1 : j = (j - 1) + 1 := by omega
          rw [hj1, childrenAt_reindex_gt t p idx (j - 1) _ (by omega)
            (by omega) hlen] at hc
          cases hct : childrenAt t (j - 1) with
          | none => rw [hct] at hc; cases hc
          | some se =>
            obtain ⟨s, e⟩ := se
            rw [hct] at hc
            simp only [shiftR, Option.map, Option.some.injEq] at hc
            refine ⟨j - 1, s, e, hct, by omega, Or.inr ⟨hgt, rfl⟩, ?_⟩
            by_cases hs : s ≥ idx
            · rw [if_pos hs] at hc
              simp only [Prod.mk.injEq] at hc
              exact Or.inl ⟨hs, hc.1.symm, hc.2.symm⟩
            · rw [if_neg hs] at hc
              simp only [Prod.mk.injEq] at hc
              rcases hnost (j - 1) s e hct with h | h
              · exact Or.inr ⟨h, hc.1.symm, hc.2.symm⟩
              · omega
  constructor
  · constructor
    · -- ranges stay well-formed, in bounds, and strictly after their parent
      intro j sj ej hc
      rcases hchar j sj ej hc with ⟨hjp, hpar⟩ | ⟨hjp, q, s, e, hcq, hqp, hpos, hsh⟩
      · subst hjp
        rcases hpar with ⟨s0, e0, hc0, hs, he⟩ | ⟨hc0, hs, he⟩
        · have := HR j s0 e0 hc0
          have hidx : idx = e0 + 1 := by
            rcases hcase with ⟨s1, e1, hc1, hidx⟩ | ⟨hc1, hidx⟩
            · rw [hc0] at hc1
              simp only [Option.some.injEq, Prod.mk.injEq] at hc1
              omega
            · rw [hc0] at hc1; cases hc1
          omega
        · omega
      · have hq := HR q s e hcq
        rcases hpos with ⟨hlt, hq'⟩ | ⟨hgt, hq'⟩ <;> rcases hsh with ⟨h1, h2, h3⟩ | ⟨h1, h2, h3⟩ <;>
          omega
    · -- ranges of distinct parents stay pairwise disjoint
      intro i j si ei sj ej hij hci hcj
      rcases hchar i si ei hci with ⟨hip, hpari⟩ | ⟨hip, qi, s1, e1, hcq1, hq1p, hpos1, hsh1⟩ <;>
        rcases hchar j sj ej hcj with ⟨hjp, hparj⟩ | ⟨hjp, qj, s2, e2, hcq2, hq2p, hpos2, hsh2⟩
      · exact absurd (hip.trans hjp.symm) hij
      · -- i is the parent, j is a reindexed old node
        subst hip
        have hq2 := HR qj s2 e2 hcq2
        rcases hpari with ⟨s0, e0, hc0, hs, he⟩ | ⟨hc0, hs, he⟩
        · have h0 := HR i s0 e0 hc0
          have hidx : idx = e0 + 1 := by
            rcases hcase with ⟨s1', e1', hc1, hidx⟩ | ⟨hc1, hidx⟩
            · rw [hc0] at hc1
              simp only [Option.some.injEq, Prod.mk.injEq] at hc1
              omega
            · rw [hc0] at hc1; cases hc1
          have hd := HD qj i s2 e2 s0 e0 hq2p hcq2 hc0
          rcases hsh2 with ⟨h1, h2, h3⟩ | ⟨h1, h2, h3⟩ <;> omega
        · have hidx : idx = t.length := by
            rcases hcase with ⟨s1', e1', hc1, hidx⟩ | ⟨hc1, hidx⟩
            · rw [hc1] at hc0; cases hc0
            · omega
          rcases hsh2 with ⟨h1, h2, h3⟩ | ⟨h1, h2, h3⟩ <;> omega
      · -- j is the parent, i is a reindexed old node
        subst hjp
        have hq1 := HR qi s1 e1 hcq1
        rcases hparj with ⟨s0, e0, hc0, hs, he⟩ | ⟨hc0, hs, he⟩
        · have h0 := HR j s0 e0 hc0
          have hidx : idx = e0 + 1 := by
            rcases hcase with ⟨s1', e1', hc1, hidx⟩ | ⟨hc1, hidx⟩
            · rw [hc0] at hc1
              simp only [Option.some.injEq, Prod.mk.injEq] at hc1
              omega
            · rw [hc0] at hc1; cases hc1
          have hd := HD qi j s1 e1 s0 e0 hq1p hcq1 hc0
          rcases hsh1 with ⟨h1, h2, h3⟩ | ⟨h1, h2, h3⟩ <;> omega
        · have hidx : idx = t.length := by
            rcases hcase with ⟨s1', e1', hc1, hidx⟩ | ⟨hc1, hidx⟩
            · rw [hc1] at hc0; cases hc0
            · omega
          rcases hsh1 with ⟨h1, h2, h3⟩ | ⟨h1, h2, h3⟩ <;> omega
      · -- both are reindexed old nodes
        have hq1 := HR qi s1 e1 hcq1
        have hq2 := HR qj s2 e2 hcq2
        have hqq : qi ≠ qj := by
          rcases hpos1 with ⟨hl1, he1⟩ | ⟨hg1, he1⟩ <;>
            rcases hpos2 with ⟨hl2, he2⟩ | ⟨hg2, he2⟩ <;> omega
        have hd := HD qi qj s1 e1 s2 e2 hqq hcq1 hcq2
        rcases hsh1 with ⟨h1, h2, h3⟩ | ⟨h1, h2, h3⟩ <;>
          rcases hsh2 with ⟨h4, h5, h6⟩ | ⟨h4, h5, h6⟩ <;> omega
  · exact rlen

theorem findChildFrom_bound (t : List (Node ρ)) (i fuel : Nat) (ns : Namespace)
    (idx : Nat) (h : findChildFrom t i fuel ns = some idx) :
    i ≤ idx ∧ idx < i + fuel := by
  induction fuel generalizing i with
  | zero => cases h
  | succ f ih =>
    unfold findChildFrom at h
    cases ht : t.get? i with
    | none =>
      rw [ht] at h
      dsimp only at h
      have := ih (i + 1) h
      omega
    | some nd =>
      rw [ht] at h
      dsimp only at h
      by_cases hm : nd.nsMatches ns
      · rw [if_pos hm] at h
        injection h with h
        omega
      · rw [if_neg hm] at h
        have := ih (i + 1) h
        omega

theorem contiguous_addStep (t : List (Node ρ)) (n : Nat) (ns : Namespace)
    (H : Contiguous t) (hn : n < t.length) :
    Contiguous (addStep t n ns).2 ∧ (addStep t n ns).1 < (addStep t n ns).2.length := by
  cases ht : t.get? n with
  | none =>
    exfalso
    rw [List.get?_eq_getElem?, List.getElem?_eq_none_iff] at ht
    omega
  | some nd =>
    have hca : childrenAt t n = nd.childrenOf := by
      rw [childrenAt_def, ← List.get?_eq_getElem?, ht]; rfl
    cases hc : nd.childrenOf with
    | some se =>
      obtain ⟨s, e⟩ := se
      have hca' : childrenAt t n = some (s, e) := by rw [hca, hc]
      have hre := H.1 n s e hca'
      cases hf : findChildFrom t s (e + 1 - s) ns with
      | some idx =>
        have heq : addStep t n ns = (idx, t) := by
          unfold addStep; rw [ht]; dsimp only; rw [hc]; dsimp only
          rw [hf]
        have hb := findChildFrom_bound t s (e + 1 - s) ns idx hf
        rw [heq]
        exact ⟨H, by dsimp only; omega⟩
      | none =>
        have heq : addStep t n ns = (e + 1, reindex (some n) (e + 1) (newNode ns) t) := by
          unfold addStep; rw [ht]; dsimp only; rw [hc]; dsimp only
          rw [hf]
        have hrw := contiguous_reindex t n (e + 1) ns H hn
          (Or.inl ⟨s, e, hca', rfl⟩)
        rw [heq]
        exact ⟨hrw.1, by have hl := hrw.2; dsimp only; omega⟩
    | none =>
      have heq : addStep t n ns =
          (t.length, reindex (some n) t.length (newNode ns) t) := by
        unfold addStep; rw [ht]; dsimp only; rw [hc]
      have hca' : childrenAt t n = none := by rw [hca, hc]
      have hrw := contiguous_reindex t n t.length ns H hn (Or.inr ⟨hca', rfl⟩)
      rw [heq]
      exact ⟨hrw.1, by have hl := hrw.2; dsimp only; omega⟩

theorem contiguous_addPath (path : List Namespace) :
    ∀ (t : List (Node ρ)) (n : Nat), Contiguous t → n < t.length →
      Contiguous (addPath t n path).2 ∧
        (addPath t n path).1 < (addPath t n path).2.length := by
  induction path with
  | nil => intro t n H hn; exact ⟨H, hn⟩
  | cons ns rest ih =>
    intro t n H hn
    have h1 := contiguous_addStep t n ns H hn
    simpa [addPath] using ih _ _ h1.1 h1.2

theorem childrenAt_modify_pushRule (t : List (Node ρ)) (i j : Nat) (rl : ρ) :
    childrenAt (modifyAt i (Node.pushRule rl) t) j = childrenAt t j := by
  by_cases hij : j = i
  · subst hij
    rw [childrenAt_def, get?_modifyAt_self, childrenAt_def]
    cases t[j]? <;> simp [childrenOf_pushRule]
  · rw [childrenAt_def, get?_modifyAt_ne _ _ hij, childrenAt_def]

theorem contiguous_congr (t t' : List (Node ρ)) (hl : t'.length = t.length)
    (hc : ∀ j, childrenAt t' j = childrenAt t j) (H : Contiguous t) :
    Contiguous t' := by
  constructor
  · intro i s e h
    rw [hc i] at h
    have := H.1 i s e h
    omega
  · intro i j si ei sj ej hij hi hj
    rw [hc i] at hi
    rw [hc j] at hj
    exact H.2 i j si ei sj ej hij hi hj

theorem contiguous_add (a : Arena ρ) (path : List Namespace) (rl : ρ)
    (H : Contiguous a.tree) (h0 : 0 < a.tree.length) :
    Contiguous (a.add path rl).tree ∧ 0 < (a.add path rl).tree.length := by
  have h1 := contiguous_addPath path a.tree 0 H h0
  constructor
  · exact contiguous_congr _ _ (modifyAt_length _ _ _)
      (fun j => childrenAt_modify_pushRule _ _ _ _) h1.1
  · show 0 < (modifyAt _ _ _).length
    rw [modifyAt_length]
    omega

theorem childrenAt_default (i : Nat) :
    childrenAt (Arena.mkDefault (ρ := ρ)).tree i = none := by
  rw [childrenAt_def]
  match i with
  | 0 => rfl
  | i + 1 => rfl

theorem contiguous_default : Contiguous (Arena.mkDefault (ρ := ρ)).tree := by
  constructor
  · intro i s e h
    rw [childrenAt_default] at h
    cases h
  · intro i j si ei sj ej hij hi hj
    rw [childrenAt_default] at hi
    cases hi

theorem contiguous_foldl (calls : List (List Namespace × ρ)) :
    ∀ (a : Arena ρ), Contiguous a.tree → 0 < a.tree.length →
      Contiguous ((calls.foldl (fun a c => a.add c.1 c.2) a).tree) ∧
        0 < ((calls.foldl (fun a c => a.add c.1 c.2) a).tree).length := by
  induction calls with
  | nil => intro a H h0; exact ⟨H, h0⟩
  | cons c rest ih =>
    intro a H h0
    have h1 := contiguous_add a c.1 c.2 H h0
    simpa [List.foldl] using ih _ h1.1 h1.2

/-! ## The flatten engine (src/rules.rs lines 180-455)

Each Rust `for` loop is modelled as a named helper that threads the output
map; array loops carry the running `enumerate` counter. `Box<dyn
StringManipulation>` is a `String → String` function. The third parameter
of `flatten` is called `id` exactly as in the Rust signature; it receives
the destination's flatten prefix. -/

mutual

/-- flatten_recursive_with_id (src/rules.rs lines 257-290). -/
def flatten_recursive_with_id (sep id : String) (src : Json) (dst : JMap) : JMap :=
  match src with
  | .obj m => frwiObjLoop sep id m dst
  | .arr xs => frwiArrLoop sep id 0 xs dst
  | _ => insertJ dst id src

/-- The object for-loop of flatten_recursive_with_id: composite values
recurse with the extended prefix, scalars are inserted. -/
def frwiObjLoop (sep id : String) (entries : List (String × Json)) (dst : JMap) : JMap :=
  match entries with
  | [] => dst
  | (k, v) :: rest =>
    frwiObjLoop sep id rest
      (match v with
       | .obj _ | .arr _ => flatten_recursive_with_id sep (id ++ sep ++ k) v dst
       | _ => insertJ dst (id ++ sep ++ k) v)

/-- The array for-loop of flatten_recursive_with_id: keys use the 1-based
index as a decimal string. -/
def frwiArrLoop (sep id : String) (i : Nat) (elems : List Json) (dst : JMap) : JMap :=
  match elems with
  | [] => dst
  | v :: rest =>
    frwiArrLoop sep id (i + 1) rest
      (match v with
       | .obj _ | .arr _ =>
         flatten_recursive_with_id sep (id ++ sep ++ toString (i + 1)) v dst
       | _ => insertJ dst (id ++ sep ++ toString (i + 1)) v)

end

/-- The object for-loop of flatten_recursive_with_id_manipulation
(src/rules.rs lines 299-313): the base token is `manipulation.apply(k)`,
but composite values recurse into flatten_recursive_with_id, i.e. WITHOUT
the manipulation. -/
def frwimObjLoop (man : String → String) (sep id : String)
    (entries : List (String × Json)) (dst : JMap) : JMap :=
  match entries with
  | [] => dst
  | (k, v) :: rest =>
    frwimObjLoop man sep id rest
      (match v with
       | .obj _ | .arr _ => flatten_recursive_with_id sep (id ++ sep ++ man k) v dst
       | _ => insertJ dst (id ++ sep ++ man k) v)

/-- The array for-loop of flatten_recursive_with_id_manipulation
(src/rules.rs lines 315-329): 1-based decimal keys, never manipulated;
composite elements recurse into flatten_recursive_with_id. -/
def frwimArrLoop (man : String → String) (sep id : String) (i : Nat)
    (elems : List Json) (dst : JMap) : JMap :=
  match elems with
  | [] => dst
  | v :: rest =>
    frwimArrLoop man sep id (i + 1) rest
      (match v with
       | .obj _ | .arr _ =>
         flatten_recursive_with_id sep (id ++ sep ++ toString (i + 1)) v dst
       | _ => insertJ dst (id ++ sep ++ toString (i + 1)) v)

/-- flatten_recursive_with_id_manipulation (src/rules.rs lines 292-334). -/
def flatten_recursive_with_id_manipulation (man : String → String)
    (sep id : String) (src : Json) (dst : JMap) : JMap :=
  match src with
  | .obj m => frwimObjLoop man sep id m dst
  | .arr xs => frwimArrLoop man sep id 0 xs dst
  | _ => insertJ dst id src

/-- The object for-loop of flatten_recursive_no_id (src/rules.rs lines
182-191): composites recurse into flatten_recursive_with_id with the key
as the new prefix. -/
def frnObjLoop (sep id : String) (entries : List (String × Json)) (dst : JMap) : JMap :=
  match entries with
  | [] => dst
  | (k, v) :: rest =>
    frnObjLoop sep id rest
      (match v with
       | .obj _ | .arr _ => flatten_recursive_with_id sep k v dst
       | _ => insertJ dst k v)

/-- The array for-loop of flatten_recursive_no_id (src/rules.rs lines
192-203). -/
def frnArrLoop (sep id : String) (i : Nat) (elems : List Json) (dst : JMap) : JMap :=
  match elems with
  | [] => dst
  | v :: rest =>
    frnArrLoop sep id (i + 1) rest
      (match v with
       | .obj _ | .arr _ => flatten_recursive_with_id sep (toString (i + 1)) v dst
       | _ => insertJ dst (toString (i + 1)) v)

/-- flatten_recursive_no_id (src/rules.rs lines 180-208). -/
def flatten_recursive_no_id (sep id : String) (src : Json) (dst : JMap) : JMap :=
  match src with
  | .obj m => frnObjLoop sep id m dst
  | .arr xs => frnArrLoop sep id 0 xs dst
  | _ => insertJ dst id src

/-- The object for-loop of flatten_recursive_no_id_manipulation
(src/rules.rs lines 219-233): composites recurse into
flatten_recursive_with_id_manipulation with the manipulated key as the new
prefix. -/
def frnmObjLoop (man : String → String) (sep id : String)
    (entries : List (String × Json)) (dst : JMap) : JMap :=
  match entries with
  | [] => dst
  | (k, v) :: rest =>
    frnmObjLoop man sep id rest
      (match v with
       | .obj _ | .arr _ =>
         flatten_recursive_with_id_manipulation man sep (man k) v dst
       | _ => insertJ dst (man k) v)

/-- The array for-loop of flatten_recursive_no_id_manipulation
(src/rules.rs lines 235-249). -/
def frnmArrLoop (man : String → String) (sep id : String) (i : Nat)
    (elems : List Json) (dst : JMap) : JMap :=
  match elems with
  | [] => dst
  | v :: rest =>
    frnmArrLoop man sep id (i + 1) rest
      (match v with
       | .obj _ | .arr _ =>
         flatten_recursive_with_id_manipulation man sep (toString (i + 1)) v dst
       | _ => insertJ dst (toString (i + 1)) v)

/-- flatten_recursive_no_id_manipulation (src/rules.rs lines 211-255). -/
def flatten_recursive_no_id_manipulation (man : String → String)
    (sep id : String) (src : Json) (dst : JMap) : JMap :=
  match src with
  | .obj m => frnmObjLoop man sep id m dst
  | .arr xs => frnmArrLoop man sep id 0 xs dst
  | _ => insertJ dst id src

/-- The object for-loop of flatten_single_level_no_id. -/
def fslnObjLoop (entries : List (String × Json)) (dst : JMap) : JMap :=
  match entries with
  | [] => dst
  | (k, v) :: rest => fslnObjLoop rest (insertJ dst k v)

/-- The array for-loop of flatten_single_level_no_id. -/
def fslnArrLoop (i : Nat) (elems : List Json) (dst : JMap) : JMap :=
  match elems with
  | [] => dst
  | v :: rest => fslnArrLoop (i + 1) rest (insertJ dst (toString (i + 1)) v)

/-- flatten_single_level_no_id (src/rules.rs lines 336-353). -/
def flatten_single_level_no_id (id : String) (src : Json) (dst : JMap) : JMap :=
  match src with
  | .obj m => fslnObjLoop m dst
  | .arr xs => fslnArrLoop 0 xs dst
  | _ => insertJ dst id src

/-- The object for-loop of flatten_single_level_with_id. -/
def fslwObjLoop (sep id : String) (entries : List (String × Json)) (dst : JMap) : JMap :=
  match entries with
  | [] => dst
  | (k, v) :: rest => fslwObjLoop sep id rest (insertJ dst (id ++ sep ++ k) v)

/-- The array for-loop of flatten_single_level_with_id. -/
def fslwArrLoop (sep id : String) (i : Nat) (elems : List Json) (dst : JMap) : JMap :=
  match elems with
  | [] => dst
  | v :: rest =>
    fslwArrLoop sep id (i + 1) rest (insertJ dst (id ++ sep ++ toString (i + 1)) v)

/-- flatten_single_level_with_id (src/rules.rs lines 355-372). -/
def flatten_single_level_with_id (sep id : String) (src : Json) (dst : JMap) : JMap :=
  match src with
  | .obj m => fslwObjLoop sep id m dst
  | .arr xs => fslwArrLoop sep id 0 xs dst
  | _ => insertJ dst id src

/-- The object for-loop of flatten_single_level_no_id_manipulation. -/
def fslnmObjLoop (man : String → String) (entries : List (String × Json))
    (dst : JMap) : JMap :=
  match entries with
  | [] => dst
  | (k, v) :: rest => fslnmObjLoop man rest (insertJ dst (man k) v)

/-- The array for-loop of flatten_single_level_no_id_manipulation: the
1-based decimal keys are NOT manipulated. -/
def fslnmArrLoop (man : String → String) (i : Nat) (elems : List Json)
    (dst : JMap) : JMap :=
  match elems with
  | [] => dst
  | v :: rest => fslnmArrLoop man (i + 1) rest (insertJ dst (toString (i + 1)) v)

/-- flatten_single_level_no_id_manipulation (src/rules.rs lines 374-396). -/
def flatten_single_level_no_id_manipulation (man : String → String) (id : String)
    (src : Json) (dst : JMap) : JMap :=
  match src with
  | .obj m => fslnmObjLoop man m dst
  | .arr xs => fslnmArrLoop man 0 xs dst
  | _ => insertJ dst id src

/-- The object for-loop of flatten_single_level_with_id_manipulation. -/
def fslwmObjLoop (man : String → String) (sep id : String)
    (entries : List (String × Json)) (dst : JMap) : JMap :=
  match entries with
  | [] => dst
  | (k, v) :: rest =>
    fslwmObjLoop man sep id rest (insertJ dst (id ++ sep ++ man k) v)

/-- The array for-loop of flatten_single_level_with_id_manipulation: the
1-based decimal keys are NOT manipulated. -/
def fslwmArrLoop (man : String → String) (sep id : String) (i : Nat)
    (elems : List Json) (dst : JMap) : JMap :=
  match elems with
  | [] => dst
  | v :: rest =>
    fslwmArrLoop man sep id (i + 1) rest
      (insertJ dst (id ++ sep ++ toString (i + 1)) v)

/-- flatten_single_level_with_id_manipulation (src/rules.rs lines 398-421). -/
def flatten_single_level_with_id_manipulation (man : String → String)
    (sep id : String) (src : Json) (dst : JMap) : JMap :=
  match src with
  | .obj m => fslwmObjLoop man sep id m dst
  | .arr xs => fslwmArrLoop man sep id 0 xs dst
  | _ => insertJ dst id src

/-- flatten (src/rules.rs lines 423-455): dispatch on recursive flag,
presence of a manipulation, and emptiness of the prefix (`id.len()`). -/
def flatten (man : Option (String → String)) (sep id : String) (src : Json)
    (dst : JMap) (recursive : Bool) : JMap :=
  if recursive then
    match man with
    | some m =>
      match id.length with
      | 0 => flatten_recursive_no_id_manipulation m sep id src dst
      | _ + 1 => flatten_recursive_with_id_manipulation m sep id src dst
    | none =>
      match id.length with
      | 0 => flatten_recursive_no_id sep id src dst
      | _ + 1 => flatten_recursive_with_id sep id src dst
  else
    match man with
    | some m =>
      match id.length with
      | 0 => flatten_single_level_no_id_manipulation m id src dst
      | _ + 1 => flatten_single_level_with_id_manipulation m sep id src dst
    | none =>
      match id.length with
      | 0 => flatten_single_level_no_id id src dst
      | _ + 1 => flatten_single_level_with_id sep id src dst

/-! ## Compiled rules (src/rules.rs)

`Source`, `Destination` and `Transform` mirror the Rust enums; the
manipulation is a `String → String` function, and the destination
prefix-path field `namespace` is called `ns` (Lean reserves the word).
The Rust `prefix` field is called `pfx`. -/

inductive Source where
  | direct (id : String)
  | directArray (id : String) (index : Nat)
  | constant (v : Json)

inductive Destination where
  | direct (ns : List Namespace) (id : String)
  | directArray (ns : List Namespace) (id : String) (index : Nat)
  | flattenDirect (ns : List Namespace) (id : Option String) (pfx sep : String)
      (man : Option (String → String)) (recursive : Bool)
  | flattenArray (ns : List Namespace) (id : String) (pfx sep : String)
      (man : Option (String → String)) (index : Nat) (recursive : Bool)

structure Transform where
  source : Source
  destination : Destination

/-- get_last (src/rules.rs lines 582-606), in update-function form: walk
the destination prefix-path from `cur`, creating missing entries with
`or_insert` (an empty object for an Object segment, an array of `index`
Nulls for an Array segment), apply `f` to the map walked to, and rebuild.
The Rust helper then does `as_object_mut().unwrap()` on the looked-up or
inserted child: when that child is not an object — in particular when an
Array segment just inserted an array of Nulls — the unwrap panics, which
is modelled as `none`. -/
def getLastUpdate (path : List Namespace) (f : JMap → JMap) (cur : JMap) :
    Option JMap :=
  match path with
  | [] => some (f cur)
  | ns :: rest =>
    let child :=
      match lookupJ cur ns.id with
      | some v => v
      | none =>
        match ns with
        | .object _ => Json.obj []
        | .array _ index => Json.arr (List.replicate index Json.null)
    match child with
    | .obj kvs => (getLastUpdate rest f kvs).map (fun kvs' => insertJ cur ns.id (.obj kvs'))
    | _ => none

/-- Source evaluation (the `field` computation of `Transform::apply`,
src/rules.rs lines 58-72). -/
def sourceEval (s : Source) (src : Json) : Json :=
  match s with
  | .direct id =>
    match src with
    | .obj m => (lookupJ m id).getD .null
    | _ => .null
  | .directArray id index =>
    match src with
    | .obj m =>
      match lookupJ m id with
      | some av =>
        match av with
        | .arr xs => (xs[index]?).getD .null
        | _ => .null
      | none => .null
    | .arr xs => (xs[index]?).getD .null
    | _ => .null
  | .constant v => v

/-- The DirectArray destination write (the match arm of `Transform::apply`
at src/rules.rs lines 77-98), acting on the map returned by get_last:
grow an existing array to `index + 1` with Null fill and set the slot;
create a fresh array of `index` Nulls followed by the field when the key
is missing; do nothing when the key holds a non-array. -/
def directArrayWrite (id : String) (index : Nat) (field : Json) (cur : JMap) : JMap :=
  match lookupJ cur id with
  | some v =>
    match v with
    | .arr xs =>
      let xs := if index ≥ xs.length then xs ++ List.replicate (index + 1 - xs.length) Json.null else xs
      insertJ cur id (.arr (xs.set index field))
    | _ => cur
  | none => insertJ cur id (.arr (List.replicate index Json.null ++ [field]))

/-- The FlattenArray destination write (src/rules.rs lines 130-173): same
array-growth discipline, the slot receiving the flattened map as an
Object. -/
def flattenArrayWrite (id : String) (index : Nat) (pfx sep : String)
    (man : Option (String → String)) (recursive : Bool) (field : Json)
    (cur : JMap) : JMap :=
  match lookupJ cur id with
  | some v =>
    match v with
    | .arr xs =>
      let xs := if index ≥ xs.length then xs ++ List.replicate (index + 1 - xs.length) Json.null else xs
      insertJ cur id (.arr (xs.set index (.obj (flatten man sep pfx field [] recursive))))
    | _ => cur
  | none =>
    insertJ cur id
      (.arr (List.replicate index Json.null ++ [.obj (flatten man sep pfx field [] recursive)]))

/-- `<Transform as Rule>::apply` (src/rules.rs lines 56-177). The Rust
body never constructs an `Err`: every return is `Ok(())`. The only way it
can fail to return is a panic inside get_last, hence the result is
`some (.ok _)` or `none`, never `some (.error _)`. -/
def Transform.apply (t : Transform) (src : Json) (dst : JMap) :
    Option (Except Error JMap) :=
  let field := sourceEval t.source src
  match t.destination with
  | .direct ns id =>
    (getLastUpdate ns (fun m => insertJ m id field) dst).map Except.ok
  | .directArray ns id index =>
    (getLastUpdate ns (directArrayWrite id index field) dst).map Except.ok
  | .flattenDirect ns id pfx sep man recursive =>
    match id with
    | some id =>
      (getLastUpdate ns
        (fun m => insertJ m id (.obj (flatten man sep pfx field [] recursive))) dst).map Except.ok
    | none =>
      (getLastUpdate ns (fun m => flatten man sep pfx field m recursive) dst).map Except.ok
  | .flattenArray ns id pfx sep man index recursive =>
    (getLastUpdate ns (flattenArrayWrite id index pfx sep man recursive field) dst).map Except.ok

/-! ## The mapping model and the rule compiler (src/rules.rs lines 457-580) -/

inductive Mapping where
  | direct (s2 d2 : String)
  | constant (v : Json) (d2 : String)
  | flatten (s2 d2 : String) (pfx sep : Option String)
      (man : Option (String → String)) (recursive : Bool)

/-- `Vec::pop`: the last element and the remaining vector. -/
def popLast (l : List Namespace) : Option Namespace × List Namespace :=
  match l.getLast? with
  | some x => (some x, l.dropLast)
  | none => (none, l)

/-- The source-leaf match repeated in `Transform::parse` (lines 474-477 and
502-505): Object leaf to Direct, Array leaf to DirectArray. -/
def sourceOfNs : Namespace → Source
  | .object id => .direct id
  | .array id index => .directArray id index

/-- The destination match of `Transform::parse` (lines 519-571). -/
def destOf (isFlatten : Bool) (field : Namespace) (ns : List Namespace)
    (pfx sep : Option String) (man : Option (String → String))
    (recursive : Bool) : Destination :=
  match field with
  | .object id =>
    if isFlatten then
      .flattenDirect ns (match id.length with | 0 => none | _ + 1 => some id)
        (pfx.getD "") (sep.getD "") man recursive
    else
      .direct ns id
  | .array id index =>
    if isFlatten then
      .flattenArray ns id (pfx.getD "") (sep.getD "") man index recursive
    else
      .directArray ns id index

/-- The shared tail of `Transform::parse` (lines 508-578): pop the
destination leaf (for Flatten an empty destination defaults to
`Object("")`), build the Destination, and return the remaining source walk
path with the compiled Transform. -/
def mkDest (isFlatten : Bool) (pfx sep : Option String)
    (man : Option (String → String)) (recursive : Bool)
    (fromRest : List Namespace) (toNs : List Namespace) (source : Source) :
    Except Error (List Namespace × Transform) :=
  if isFlatten then
    let field := (popLast toNs).1.getD (.object "")
    .ok (fromRest, ⟨source, destOf true field (popLast toNs).2 pfx sep man recursive⟩)
  else
    match (popLast toNs).1 with
    | none => .error (.invalidNamespace "No field defined for namespace")
    | some field =>
      .ok (fromRest, ⟨source, destOf false field (popLast toNs).2 pfx sep man recursive⟩)

/-- `Transform::parse` (src/rules.rs lines 457-580). -/
def Transform.parse (mapping : Mapping) : Except Error (List Namespace × Transform) :=
  match mapping with
  | .direct s2 d2 =>
    match Namespace.parse s2 with
    | .error e => .error e
    | .ok fromNs =>
      match Namespace.parse d2 with
      | .error e => .error e
      | .ok toNs =>
        match (popLast fromNs).1 with
        | none => .error (.invalidNamespace "No field defined for namespace")
        | some field =>
          mkDest false none none none false (popLast fromNs).2 toNs (sourceOfNs field)
  | .constant v d2 =>
    match Namespace.parse d2 with
    | .error e => .error e
    | .ok toNs => mkDest false none none none false [] toNs (.constant v)
  | .flatten s2 d2 pfx sep man recursive =>
    match Namespace.parse s2 with
    | .error e => .error e
    | .ok fromNs =>
      match Namespace.parse d2 with
      | .error e => .error e
      | .ok toNs =>
        match (popLast fromNs).1 with
        | none => .error (.invalidNamespace "No field defined for namespace")
        | some field =>
          mkDest true pfx sep man recursive (popLast fromNs).2 toNs (sourceOfNs field)

/-! ## The evaluator (src/transformer.rs)

The recursion of `transform_recursive` always descends into a strict
sub-value of the current source value, which is the termination measure. -/

inductive Mode where
  | one2one
  | many2many
deriving DecidableEq, Repr

theorem sizeOf_lookupJ : ∀ (m : JMap) (id : String) (v : Json),
    lookupJ m id = some v → sizeOf v < sizeOf m := by
  intro m
  induction m with
  | nil => intro id v h; cases h
  | cons kv rest ih =>
    intro id v h
    obtain ⟨k, w⟩ := kv
    unfold lookupJ at h
    by_cases hk : k = id
    · rw [if_pos hk] at h
      injection h with h
      subst h
      simp
      omega
    · rw [if_neg hk] at h
      have := ih id v h
      simp
      omega

theorem sizeOf_jGet (source : Json) (id : String) (v : Json)
    (h : jGet source id = some v) : sizeOf v < sizeOf source := by
  cases source <;> try cases h
  case obj m =>
    have := sizeOf_lookupJ m id v h
    simp
    omega

theorem asArr_eq (v : Json) (xs : List Json) (h : asArr v = some xs) :
    v = Json.arr xs := by
  cases v <;> cases h
  rfl

theorem sizeOf_arr_elem (xs : List Json) (i : Nat) (v : Json)
    (h : xs[i]? = some v) : sizeOf v < sizeOf (Json.arr xs) := by
  have hm : v ∈ xs := by
    have h1 : i < xs.length := by
      by_contra hc
      push_neg at hc
      rw [List.getElem?_eq_none hc] at h
      cases h
    have h2 : xs[i] = v := by
      have := List.getElem?_eq_getElem h1
      rw [this] at h
      injection h
    exact h2 ▸ List.getElem_mem h1
  have := List.sizeOf_lt_of_mem hm
  simp
  omega

section Evaluator

variable (apr : ρ → Json → JMap → Option (Except Error JMap))

/-- The rule loop at the head of `transform_recursive` (lines 204-208):
rules run in order, `?` propagates errors, a panic aborts. -/
def applyRules : List ρ → Json → JMap → Option (Except Error JMap)
  | [], _, d => some (.ok d)
  | r :: rest, src, d =>
    match apr r src d with
    | none => none
    | some (.error e) => some (.error e)
    | some (.ok d') => applyRules rest src d'

mutual

/-- transform_recursive (src/transformer.rs lines 191-242). -/
def transformRecursive (t : List (Node ρ)) (node : Node ρ) (source : Json)
    (dest : JMap) : Option (Except Error JMap) :=
  match applyRules apr (node.rulesOf.getD []) source dest with
  | none => none
  | some (.error e) => some (.error e)
  | some (.ok d1) =>
    match node.childrenOf with
    | none => some (.ok d1)
    | some (s, e) => transformChildren t (List.range' s (e + 1 - s)) source d1
termination_by (sizeOf source, 1, 0)
decreasing_by
  all_goals simp_wf
  exact Prod.Lex.right _ (Prod.Lex.left _ _ (by omega))

/-- The child loop of transform_recursive (`for idx in *start..=*end`,
lines 210-237): look the child node up, navigate into the corresponding
sub-value, and skip the child when navigation fails. -/
def transformChildren (t : List (Node ρ)) (idxs : List Nat) (source : Json)
    (dest : JMap) : Option (Except Error JMap) :=
  match idxs with
  | [] => some (.ok dest)
  | i :: rest =>
    match t.get? i with
    | none => transformChildren t rest source dest
    | some n =>
      match n with
      | .object id _ _ =>
        match h : jGet source id with
        | some cur =>
          match transformRecursive t n cur dest with
          | none => none
          | some (.error e) => some (.error e)
          | some (.ok d') => transformChildren t rest source d'
        | none => transformChildren t rest source dest
      | .array index id _ _ =>
        if id ≠ "" then
          match h1 : jGet source id with
          | some lv =>
            match h2 : asArr lv with
            | some arr =>
              match h3 : arr[index]? with
              | some v =>
                match transformRecursive t n v dest with
                | none => none
                | some (.error e) => some (.error e)
                | some (.ok d') => transformChildren t rest source d'
              | none => transformChildren t rest source dest
            | none => transformChildren t rest source dest
          | none => transformChildren t rest source dest
        else
          match h4 : asArr source with
          | some arr =>
            match h5 : arr[index]? with
            | some v =>
              match transformRecursive t n v dest with
              | none => none
              | some (.error e) => some (.error e)
              | some (.ok d') => transformChildren t rest source d'
            | none => transformChildren t rest source dest
          | none => transformChildren t rest source dest
termination_by (sizeOf source, 0, idxs.length)
decreasing_by
  all_goals simp_wf
  all_goals
    first
    | exact Prod.Lex.right _ (Prod.Lex.right _ (by omega))
    | exact Prod.Lex.left _ _ (by have := sizeOf_jGet source id cur h; omega)
    | exact Prod.Lex.left _ _ (by
        have ha := asArr_eq lv arr h2
        have hv := sizeOf_arr_elem arr index v h3
        have hl := sizeOf_jGet source id lv h1
        rw [ha] at hl
        omega)
    | exact Prod.Lex.left _ _ (by
        have ha := asArr_eq source arr h4
        have hv := sizeOf_arr_elem arr index v h5
        rw [ha]
        omega)

end

/-- The Many2Many element loop of `transform` (lines 174-181): each
top-level array element is evaluated against the root node into a fresh
map and wrapped as an Object; order is preserved and errors abort. -/
def m2mLoop (t : List (Node ρ)) (node : Node ρ) :
    List Json → Option (Except Error (List Json))
  | [] => some (.ok [])
  | x :: rest =>
    match transformRecursive apr t node x [] with
    | none => none
    | some (.error e) => some (.error e)
    | some (.ok m) =>
      match m2mLoop t node rest with
      | none => none
      | some (.error e) => some (.error e)
      | some (.ok ys) => some (.ok (Json.obj m :: ys))

/-- transform (src/transformer.rs lines 171-189): the Many2Many guard on a
top-level array maps each element; everything else is evaluated once into
an Object. -/
def transformTop (mode : Mode) (t : List (Node ρ)) (node : Node ρ)
    (source : Json) : Option (Except Error Json) :=
  match source, mode with
  | .arr v, .many2many => (m2mLoop apr t node v).map (Except.map Json.arr)
  | _, _ => (transformRecursive apr t node source []).map (Except.map Json.obj)

end Evaluator

structure Transformer (ρ : Type) where
  root : Arena ρ
  mode : Mode

/-- The shared body of `Transformer::apply_from_str` / `apply_to`
(src/transformer.rs lines 141-168), taking the already-converted tree
value: look up the root node (the Rust code unwraps it) and run
`transform`. JSON (de)serialization is outside the model. -/
def applyValue (apr : ρ → Json → JMap → Option (Except Error JMap))
    (tr : Transformer ρ) (src : Json) : Option (Except Error Json) :=
  match tr.root.tree.get? 0 with
  | some nd => transformTop apr tr.mode tr.root.tree nd src
  | none => none

/-! ## Claims -/

/-- C1: starting from the default root-only arena, every finite sequence
of `Arena::add` calls — with arbitrary paths and rules — leaves the arena
contiguous: every node with `children = Some((s, e))` has `s ≤ e`, the
indices `s..=e` denote existing nodes strictly after the parent and are
exactly that node's direct children, and the child ranges of distinct
parents are pairwise disjoint. -/
theorem c1_arena_contiguity (calls : List (List Namespace × ρ)) :
    Contiguous (buildArena calls).tree :=
  (contiguous_foldl calls Arena.mkDefault contiguous_default
    (by simp [Arena.mkDefault])).1

/-- C2 (evaluation at the failing input): with manipulation k ↦ k ++ "!",
separator "_" and recursive = true, the flatten engine does NOT apply the
manipulation to object keys nested below the first recursion level.
With prefix "p" the inner key "b" yields "p_a!_b" (the claim requires
"p_a!_b!"); with empty prefix the depth-3 key "c" yields "a!_b!_c" (the
claim requires "a!_b!_c!"). The with-id manipulation variant recurses into
flatten_recursive_with_id, dropping the manipulation. -/
theorem c2_flatten_drops_manipulation :
    flatten (some (fun s => s ++ "!")) "_" "p"
        (Json.obj [("a", Json.obj [("b", Json.num 1)])]) [] true
      = [("p_a!_b", Json.num 1)] ∧
    flatten (some (fun s => s ++ "!")) "_" ""
        (Json.obj [("a", Json.obj [("b", Json.obj [("c", Json.num 1)])])]) [] true
      = [("a!_b!_c", Json.num 1)] :=
  ⟨rfl, rfl⟩

/-- C3 counterexample: `Namespace::parse` applied to the empty string does
NOT return one `Object("")` segment — `split_terminator` drops the single
empty piece, so the result is `Ok` of the EMPTY segment list. -/
theorem c3_parse_empty_counterexample :
    Namespace.parse "" ≠ Except.ok [Namespace.object ""] := by
  intro h
  rw [show Namespace.parse "" = Except.ok [] from rfl] at h
  injection h with h
  cases h

/-- C3 amended: parse applied to the empty string succeeds and returns the
empty sequence of segments (no segments at all). -/
theorem c3_parse_empty_amended : Namespace.parse "" = Except.ok [] := rfl

/-- C4 counterexample: the destination-prefix walk is NOT total on Array
segments. With prefix-path `a[2]` and an empty output map, get_last
inserts `[null, null]` under "a" and then panics on
`as_object_mut().unwrap()` (modelled as `none`), and the whole rule
application aborts instead of returning the last object's map. -/
theorem c4_get_last_counterexample :
    getLastUpdate [Namespace.array "a" 2] (fun m => m) [] = none ∧
      Transform.apply ⟨.constant .null, .direct [Namespace.array "a" 2] "y"⟩
        .null [] = none :=
  ⟨rfl, rfl⟩

/-- C4 amended: at an Array segment of a destination prefix-path, the
walk (a) aborts when the entry is absent — the entry is created as an
array pre-sized to the segment's index with Null fill, and the subsequent
`as_object_mut().unwrap()` on that array panics; (b) descends into the
object case when the entry already holds an Object; (c) aborts when the
entry holds any non-object value. -/
theorem c4_get_last_array_segment (id : String) (idx : Nat)
    (rest : List Namespace) (f : JMap → JMap) (m : JMap) :
    (lookupJ m id = none →
      getLastUpdate (Namespace.array id idx :: rest) f m = none) ∧
    (∀ kvs, lookupJ m id = some (Json.obj kvs) →
      getLastUpdate (Namespace.array id idx :: rest) f m =
        (getLastUpdate rest f kvs).map (fun kvs' => insertJ m id (Json.obj kvs'))) ∧
    (∀ v, lookupJ m id = some v → (∀ kvs, v ≠ Json.obj kvs) →
      getLastUpdate (Namespace.array id idx :: rest) f m = none) := by
  refine ⟨?_, ?_, ?_⟩
  · intro h
    simp [getLastUpdate, Namespace.id, h]
  · intro kvs h
    simp [getLastUpdate, Namespace.id, h]
  · intro v h hne
    cases v <;> simp [getLastUpdate, Namespace.id, h]
    exact absurd rfl (hne _)

theorem c4_witness :
    getLastUpdate [Namespace.array "a" 2] (fun m => insertJ m "y" Json.null) []
      = none :=
  (c4_get_last_array_segment "a" 2 [] (fun m => insertJ m "y" Json.null) []).1 rfl

/-- Option-and-error sequenced map over a list, used to state the
Many2Many law: it stops at the first panic or error, as the Rust element
loop does. -/
def mapAll (f : Json → Option (Except Error Json)) :
    List Json → Option (Except Error (List Json))
  | [] => some (.ok [])
  | x :: xs =>
    match f x with
    | none => none
    | some (.error e) => some (.error e)
    | some (.ok y) =>
      match mapAll f xs with
      | none => none
      | some (.error e) => some (.error e)
      | some (.ok ys) => some (.ok (y :: ys))

theorem transformTop_one2one (apr : ρ → Json → JMap → Option (Except Error JMap))
    (t : List (Node ρ)) (node : Node ρ) (x : Json) :
    transformTop apr .one2one t node x =
      (transformRecursive apr t node x []).map (Except.map Json.obj) := by
  cases x <;> rfl

theorem m2mLoop_eq_mapAll (apr : ρ → Json → JMap → Option (Except Error JMap))
    (t : List (Node ρ)) (node : Node ρ) (v : List Json) :
    m2mLoop apr t node v = mapAll (fun x => transformTop apr .one2one t node x) v := by
  induction v with
  | nil => rfl
  | cons x xs ih =>
    cases h : transformRecursive apr t node x [] with
    | none => simp [m2mLoop, mapAll, transformTop_one2one, h]
    | some r =>
      cases r with
      | error e => simp [m2mLoop, mapAll, transformTop_one2one, h, Except.map]
      | ok m => simp [m2mLoop, mapAll, transformTop_one2one, h, ih, Except.map]

/-- C5: in Many2Many mode, transforming a top-level array `[a, b, c, …]`
produces the array `[T(a), T(b), T(c), …]` in order, where `T` is the
single-document transform (the non-array branch of `transform`, here the
One2One evaluation) run against the given root node; every element is
evaluated against the root into a fresh Object. -/
theorem c5_many2many (apr : ρ → Json → JMap → Option (Except Error JMap))
    (t : List (Node ρ)) (node : Node ρ) (v : List Json) :
    transformTop apr .many2many t node (Json.arr v) =
      (mapAll (fun x => transformTop apr .one2one t node x) v).map
        (Except.map Json.arr) := by
  rw [show transformTop apr .many2many t node (Json.arr v) =
    (m2mLoop apr t node v).map (Except.map Json.arr) from rfl, m2mLoop_eq_mapAll]

theorem set_append_last (l : List Json) (a b : Json) (k : Nat)
    (hk : k = l.length) : (l ++ [a]).set k b = l ++ [b] := by
  subst hk
  induction l with
  | nil => rfl
  | cons x xs ih => simp [List.set, ih]

/-- C6: the DirectArray destination write. (a) On an existing array
shorter than `index + 1`: grow with Null fill and set slot `index`, so the
result is the old elements, `index - len` Nulls, then the field — total
length `index + 1`. (b) On a missing key: a fresh array of `index` Nulls
followed by the field. (c) On an existing non-array: the map is returned
unchanged. -/
theorem c6_direct_array_write (id : String) (index : Nat) (field : Json)
    (m : JMap) :
    (∀ xs, lookupJ m id = some (Json.arr xs) → xs.length < index + 1 →
      directArrayWrite id index field m =
        insertJ m id (Json.arr (xs ++ List.replicate (index - xs.length) Json.null ++ [field])) ∧
      (xs ++ List.replicate (index - xs.length) Json.null ++ [field]).length = index + 1) ∧
    (lookupJ m id = none →
      directArrayWrite id index field m =
        insertJ m id (Json.arr (List.replicate index Json.null ++ [field])) ∧
      (List.replicate index Json.null ++ [field]).length = index + 1) ∧
    (∀ v, lookupJ m id = some v → (∀ xs, v ≠ Json.arr xs) →
      directArrayWrite id index field m = m) := by
  refine ⟨?_, ?_, ?_⟩
  · intro xs h hlen
    have hge : index ≥ xs.length := by omega
    have hrep : List.replicate (index + 1 - xs.length) Json.null =
        List.replicate (index - xs.length) Json.null ++ [Json.null] := by
      have : index + 1 - xs.length = (index - xs.length) + 1 := by omega
      rw [this, List.replicate_succ']
    have hset : (xs ++ List.replicate (index + 1 - xs.length) Json.null).set index field =
        xs ++ List.replicate (index - xs.length) Json.null ++ [field] := by
      rw [hrep, ← List.append_assoc]
      refine set_append_last _ _ _ _ ?_
      simp
      omega
    constructor
    · simp only [directArrayWrite, h]
      rw [if_pos hge, hset]
    · simp
      omega
  · intro h
    constructor
    · simp [directArrayWrite, h]
    · simp
  · intro v h hne
    cases v <;> simp [directArrayWrite, h]
    exact absurd rfl (hne _)

theorem c6_witness :
    (directArrayWrite "a" 2 (Json.num 7) [("a", Json.arr [Json.str "x"])] =
      insertJ [("a", Json.arr [Json.str "x"])] "a"
        (Json.arr ([Json.str "x"] ++ List.replicate 1 Json.null ++ [Json.num 7]))) ∧
    (directArrayWrite "b" 2 (Json.num 7) [] =
      insertJ [] "b" (Json.arr (List.replicate 2 Json.null ++ [Json.num 7]))) ∧
    (directArrayWrite "a" 2 (Json.num 7) [("a", Json.str "x")] =
      [("a", Json.str "x")]) :=
  ⟨((c6_direct_array_write "a" 2 (Json.num 7) [("a", Json.arr [Json.str "x"])]).1
      [Json.str "x"] rfl (by simp)).1,
   ((c6_direct_array_write "b" 2 (Json.num 7) []).2.1 rfl).1,
   (c6_direct_array_write "a" 2 (Json.num 7) [("a", Json.str "x")]).2.2
      (Json.str "x") rfl (fun xs h => by cases h)⟩

theorem lookupJ_insertJ_self (m : JMap) (k : String) (v : Json) :
    lookupJ (insertJ m k v) k = some v := by
  induction m with
  | nil => simp [insertJ, lookupJ]
  | cons kv rest ih =>
    obtain ⟨k', v'⟩ := kv
    by_cases h : k' = k <;> simp [insertJ, lookupJ, h, ih]

theorem sourceEval_direct_missing (X : String) (src : Json)
    (h : jGet src X = none) : sourceEval (.direct X) src = Json.null := by
  cases src <;> first
    | rfl
    | (simp only [sourceEval]; rw [show lookupJ _ X = none from h]; rfl)

/-- C7: missing source vs failed navigation. (a) A Direct rule `X → Y`
whose node IS reached but whose source field `X` is absent from the
current sub-value writes Null at `Y`: the output map is the input map with
`Y ↦ Null`, and looking `Y` up yields Null. (b) When navigation to the
rule's node fails — here a rule compiled for source path `p.X` run against
a value with no `p` — the rule does not fire at all: the one-document
evaluation returns the empty output map, so `Y` is absent from the
output. -/
theorem c7_missing_source (X Y : String) :
    (∀ (src : Json) (m : JMap), jGet src X = none →
      Transform.apply ⟨.direct X, .direct [] Y⟩ src m =
        some (.ok (insertJ m Y Json.null)) ∧
      lookupJ (insertJ m Y Json.null) Y = some Json.null) ∧
    (∀ v : Json, jGet v "p" = none →
      applyValue Transform.apply
        ⟨(Arena.mkDefault).add [Namespace.object "p"]
            (⟨.direct X, .direct [] Y⟩ : Transform), .one2one⟩ v =
          some (.ok (Json.obj [])) ∧
      lookupJ ([] : JMap) Y = none) := by
  constructor
  · intro src m h
    refine ⟨?_, lookupJ_insertJ_self m Y Json.null⟩
    simp [Transform.apply, getLastUpdate, sourceEval_direct_missing X src h]
  · intro v hv
    have hA : (Arena.mkDefault).add [Namespace.object "p"]
        (⟨.direct X, .direct [] Y⟩ : Transform)
        = ⟨[Node.object "" (some (1, 1)) none,
            Node.object "p" none (some [⟨.direct X, .direct [] Y⟩])]⟩ := rfl
    refine ⟨?_, rfl⟩
    simp only [applyValue, hA]
    rw [show (List.get? [Node.object "" (some (1, 1)) none,
        Node.object "p" none (some [(⟨.direct X, .direct [] Y⟩ : Transform)])] 0)
      = some (Node.object "" (some (1, 1)) none) from rfl]
    dsimp only
    rw [transformTop_one2one]
    rw [transformRecursive]
    simp only [Node.rulesOf, Node.childrenOf, Option.getD, applyRules]
    rw [show List.range' 1 (1 + 1 - 1) = [1] from rfl]
    rw [transformChildren]
    simp only [List.get?]
    split
    · next cur h => rw [hv] at h; cases h
    · rw [transformChildren]
      rfl

theorem c7_witness :
    (Transform.apply ⟨.direct "x", .direct [] "y"⟩ Json.null [] =
      some (.ok (insertJ [] "y" Json.null))) ∧
    (applyValue Transform.apply
        ⟨(Arena.mkDefault).add [Namespace.object "p"]
            (⟨.direct "x", .direct [] "y"⟩ : Transform), .one2one⟩ Json.null =
      some (.ok (Json.obj []))) :=
  ⟨((c7_missing_source "x" "y").1 Json.null [] rfl).1,
   ((c7_missing_source "x" "y").2 Json.null rfl).1⟩

/-- C8: compiling a Mapping with an empty `to` string. Direct mappings
(whenever their `from` parses) and Constant mappings fail with
InvalidNamespace; Flatten mappings (whenever their `from` parses to a
non-empty path) succeed, with the destination leaf defaulted to
`Object("")`, i.e. a FlattenDirect with no id and empty prefix-path —
flatten targets the output root directly. -/
theorem c8_empty_to (v : Json) :
    (∀ (s2 : String) (l : List Namespace), Namespace.parse s2 = .ok l →
      Transform.parse (.direct s2 "") =
        .error (.invalidNamespace "No field defined for namespace")) ∧
    (Transform.parse (.constant v "") =
      .error (.invalidNamespace "No field defined for namespace")) ∧
    (∀ (s2 : String) (l : List Namespace) (leaf : Namespace)
        (pfx sep : Option String) (man : Option (String → String))
        (recursive : Bool),
      Namespace.parse s2 = .ok (l ++ [leaf]) →
      Transform.parse (.flatten s2 "" pfx sep man recursive) =
        .ok (l, ⟨sourceOfNs leaf,
          .flattenDirect [] none (pfx.getD "") (sep.getD "") man recursive⟩)) := by
  refine ⟨?_, rfl, ?_⟩
  · intro s2 l hp
    simp only [Transform.parse, hp]
    rw [show Namespace.parse "" = Except.ok [] from rfl]
    cases hl : l.getLast? with
    | none => simp [popLast, hl]
    | some f => simp [popLast, hl, mkDest]
  · intro s2 l leaf pfx sep man recursive hp
    simp only [Transform.parse, hp]
    rw [show Namespace.parse "" = Except.ok [] from rfl]
    have h1 : (l ++ [leaf]).getLast? = some leaf := by
      simp [List.getLast?_concat]
    have h2 : (l ++ [leaf]).dropLast = l := by
      simp
    simp [popLast, h1, h2, mkDest, destOf]

theorem c8_witness :
    (Transform.parse (.direct "x" "") =
      .error (.invalidNamespace "No field defined for namespace")) ∧
    (Transform.parse (.constant Json.null "") =
      .error (.invalidNamespace "No field defined for namespace")) ∧
    (Transform.parse (.flatten "x" "" none none none true) =
      .ok ([], ⟨.direct "x", .flattenDirect [] none "" "" none true⟩)) :=
  ⟨(c8_empty_to Json.null).1 "x" [Namespace.object "x"] rfl,
   (c8_empty_to Json.null).2.1,
   (c8_empty_to Json.null).2.2 "x" [] (Namespace.object "x") none none none true rfl⟩

/-! ### C9: array-derived flatten keys -/

/-- Reference formula following the spec's words for §4.5: flattening an
array writes element `i` (0-based) under the 1-based decimal token
`toString (i+1)`, composed with the prefix and separator exactly as for
object keys (bare token when the prefix is empty, `pfx ++ sep ++ token`
otherwise). -/
def flattenArrayKeysSpec (pfx sep : String) (i : Nat) (elems : List Json)
    (dst : JMap) : JMap :=
  match elems with
  | [] => dst
  | v :: rest =>
    flattenArrayKeysSpec pfx sep (i + 1) rest
      (insertJ dst
        (if pfx.length = 0 then toString (i + 1) else pfx ++ sep ++ toString (i + 1)) v)

/-- A value that is neither an object nor an array: flatten loops insert
scalars directly instead of recursing. -/
def isScalar : Json → Bool
  | .obj _ => false
  | .arr _ => false
  | _ => true

theorem fslnArrLoop_spec (pfx sep : String) (hp : pfx.length = 0) :
    ∀ (xs : List Json) (i : Nat) (dst : JMap),
      fslnArrLoop i xs dst = flattenArrayKeysSpec pfx sep i xs dst := by
  intro xs
  induction xs with
  | nil => intro i dst; rfl
  | cons v rest ih => intro i dst; simp [fslnArrLoop, flattenArrayKeysSpec, hp, ih]

theorem fslwArrLoop_spec (pfx sep : String) (hp : pfx.length ≠ 0) :
    ∀ (xs : List Json) (i : Nat) (dst : JMap),
      fslwArrLoop sep pfx i xs dst = flattenArrayKeysSpec pfx sep i xs dst := by
  intro xs
  induction xs with
  | nil => intro i dst; rfl
  | cons v rest ih => intro i dst; simp [fslwArrLoop, flattenArrayKeysSpec, hp, ih]

theorem fslnmArrLoop_eq (man : String → String) :
    ∀ (xs : List Json) (i : Nat) (dst : JMap),
      fslnmArrLoop man i xs dst = fslnArrLoop i xs dst := by
  intro xs
  induction xs with
  | nil => intro i dst; rfl
  | cons v rest ih => intro i dst; simp [fslnmArrLoop, fslnArrLoop, ih]

theorem fslwmArrLoop_eq (man : String → String) (sep pfx : String) :
    ∀ (xs : List Json) (i : Nat) (dst : JMap),
      fslwmArrLoop man sep pfx i xs dst = fslwArrLoop sep pfx i xs dst := by
  intro xs
  induction xs with
  | nil => intro i dst; rfl
  | cons v rest ih => intro i dst; simp [fslwmArrLoop, fslwArrLoop, ih]

theorem flatten_arr_single_level (man : Option (String → String))
    (sep pfx : String) (xs : List Json) (dst : JMap) :
    flatten man sep pfx (Json.arr xs) dst false =
      flattenArrayKeysSpec pfx sep 0 xs dst := by
  unfold flatten
  cases man with
  | none =>
    cases hp : pfx.length with
    | zero =>
      simp only [if_neg (by simp : ¬ (false = true)), flatten_single_level_no_id]
      exact fslnArrLoop_spec pfx sep hp xs 0 dst
    | succ k =>
      simp only [if_neg (by simp : ¬ (false = true)), flatten_single_level_with_id]
      exact fslwArrLoop_spec pfx sep (by omega) xs 0 dst
  | some m =>
    cases hp : pfx.length with
    | zero =>
      simp only [if_neg (by simp : ¬ (false = true)),
        flatten_single_level_no_id_manipulation]
      rw [fslnmArrLoop_eq]
      exact fslnArrLoop_spec pfx sep hp xs 0 dst
    | succ k =>
      simp only [if_neg (by simp : ¬ (false = true)),
        flatten_single_level_with_id_manipulation]
      rw [fslwmArrLoop_eq]
      exact fslwArrLoop_spec pfx sep (by omega) xs 0 dst

theorem frnArrLoop_scalar_spec (sep id pfx : String) (hp : pfx.length = 0) :
    ∀ (xs : List Json), xs.all isScalar = true → ∀ (i : Nat) (dst : JMap),
      frnArrLoop sep id i xs dst = flattenArrayKeysSpec pfx sep i xs dst := by
  intro xs
  induction xs with
  | nil => intro _ i dst; rfl
  | cons v rest ih =>
    intro hall i dst
    have hv : isScalar v = true := by simpa using List.all_eq_true.mp hall v (by simp)
    have hrest : rest.all isScalar = true :=
      List.all_eq_true.mpr fun x hx => List.all_eq_true.mp hall x (by simp [hx])
    cases v with
    | obj m => simp [isScalar] at hv
    | arr a => simp [isScalar] at hv
    | null => simp [frnArrLoop, flattenArrayKeysSpec, hp, ih hrest]
    | bool b => simp [frnArrLoop, flattenArrayKeysSpec, hp, ih hrest]
    | num n => simp [frnArrLoop, flattenArrayKeysSpec, hp, ih hrest]
    | str s => simp [frnArrLoop, flattenArrayKeysSpec, hp, ih hrest]

theorem frnmArrLoop_scalar_spec (man : String → String) (sep id pfx : String)
    (hp : pfx.length = 0) :
    ∀ (xs : List Json), xs.all isScalar = true → ∀ (i : Nat) (dst : JMap),
      frnmArrLoop man sep id i xs dst = flattenArrayKeysSpec pfx sep i xs dst := by
  intro xs
  induction xs with
  | nil => intro _ i dst; rfl
  | cons v rest ih =>
    intro hall i dst
    have hv : isScalar v = true := by simpa using List.all_eq_true.mp hall v (by simp)
    have hrest : rest.all isScalar = true :=
      List.all_eq_true.mpr fun x hx => List.all_eq_true.mp hall x (by simp [hx])
    cases v with
    | obj m => simp [isScalar] at hv
    | arr a => simp [isScalar] at hv
    | null => simp [frnmArrLoop, flattenArrayKeysSpec, hp, ih hrest]
    | bool b => simp [frnmArrLoop, flattenArrayKeysSpec, hp, ih hrest]
    | num n => simp [frnmArrLoop, flattenArrayKeysSpec, hp, ih hrest]
    | str s => simp [frnmArrLoop, flattenArrayKeysSpec, hp, ih hrest]

theorem frwimArrLoop_scalar_spec (man : String → String) (sep pfx : String)
    (hp : pfx.length ≠ 0) :
    ∀ (xs : List Json), xs.all isScalar = true → ∀ (i : Nat) (dst : JMap),
      frwimArrLoop man sep pfx i xs dst = flattenArrayKeysSpec pfx sep i xs dst := by
  intro xs
  induction xs with
  | nil => intro _ i dst; rfl
  | cons v rest ih =>
    intro hall i dst
    have hv : isScalar v = true := by simpa using List.all_eq_true.mp hall v (by simp)
    have hrest : rest.all isScalar = true :=
      List.all_eq_true.mpr fun x hx => List.all_eq_true.mp hall x (by simp [hx])
    cases v with
    | obj m => simp [isScalar] at hv
    | arr a => simp [isScalar] at hv
    | null => simp [frwimArrLoop, flattenArrayKeysSpec, hp, ih hrest]
    | bool b => simp [frwimArrLoop, flattenArrayKeysSpec, hp, ih hrest]
    | num n => simp [frwimArrLoop, flattenArrayKeysSpec, hp, ih hrest]
    | str s => simp [frwimArrLoop, flattenArrayKeysSpec, hp, ih hrest]

/-- The with-id recursive array loop on an all-scalar element list: since
it is defined inside the mutual block (compiled over the nested recursor),
its cons steps are taken definitionally per scalar constructor. -/
theorem frwiArrLoop_scalar_spec (sep pfx : String) (hp : pfx.length ≠ 0) :
    ∀ (xs : List Json), xs.all isScalar = true → ∀ (i : Nat) (dst : JMap),
      frwiArrLoop sep pfx i xs dst = flattenArrayKeysSpec pfx sep i xs dst := by
  intro xs
  induction xs with
  | nil => intro _ i dst; rfl
  | cons v rest ih =>
    intro hall i dst
    have hv : isScalar v = true := by simpa using List.all_eq_true.mp hall v (by simp)
    have hrest : rest.all isScalar = true :=
      List.all_eq_true.mpr fun x hx => List.all_eq_true.mp hall x (by simp [hx])
    have hkey : (if pfx.length = 0 then toString (i + 1)
        else pfx ++ sep ++ toString (i + 1)) = pfx ++ sep ++ toString (i + 1) :=
      if_neg hp
    cases v with
    | obj m => simp [isScalar] at hv
    | arr a => simp [isScalar] at hv
    | null =>
      show frwiArrLoop sep pfx (i + 1) rest
          (insertJ dst (pfx ++ sep ++ toString (i + 1)) Json.null) = _
      rw [show flattenArrayKeysSpec pfx sep i (Json.null :: rest) dst =
          flattenArrayKeysSpec pfx sep (i + 1) rest
            (insertJ dst (if pfx.length = 0 then toString (i + 1)
              else pfx ++ sep ++ toString (i + 1)) Json.null) from rfl, hkey]
      exact ih hrest (i + 1) _
    | bool b =>
      show frwiArrLoop sep pfx (i + 1) rest
          (insertJ dst (pfx ++ sep ++ toString (i + 1)) (Json.bool b)) = _
      rw [show flattenArrayKeysSpec pfx sep i (Json.bool b :: rest) dst =
          flattenArrayKeysSpec pfx sep (i + 1) rest
            (insertJ dst (if pfx.length = 0 then toString (i + 1)
              else pfx ++ sep ++ toString (i + 1)) (Json.bool b)) from rfl, hkey]
      exact ih hrest (i + 1) _
    | num n =>
      show frwiArrLoop sep pfx (i + 1) rest
          (insertJ dst (pfx ++ sep ++ toString (i + 1)) (Json.num n)) = _
      rw [show flattenArrayKeysSpec pfx sep i (Json.num n :: rest) dst =
          flattenArrayKeysSpec pfx sep (i + 1) rest
            (insertJ dst (if pfx.length = 0 then toString (i + 1)
              else pfx ++ sep ++ toString (i + 1)) (Json.num n)) from rfl, hkey]
      exact ih hrest (i + 1) _
    | str s =>
      show frwiArrLoop sep pfx (i + 1) rest
          (insertJ dst (pfx ++ sep ++ toString (i + 1)) (Json.str s)) = _
      rw [show flattenArrayKeysSpec pfx sep i (Json.str s :: rest) dst =
          flattenArrayKeysSpec pfx sep (i + 1) rest
            (insertJ dst (if pfx.length = 0 then toString (i + 1)
              else pfx ++ sep ++ toString (i + 1)) (Json.str s)) from rfl, hkey]
      exact ih hrest (i + 1) _

theorem flatten_arr_recursive_scalars (man : Option (String → String))
    (sep pfx : String) (xs : List Json) (dst : JMap)
    (hs : xs.all isScalar = true) :
    flatten man sep pfx (Json.arr xs) dst true =
      flattenArrayKeysSpec pfx sep 0 xs dst := by
  unfold flatten
  cases man with
  | none =>
    cases hp : pfx.length with
    | zero =>
      simp only [if_pos rfl, flatten_recursive_no_id]
      exact frnArrLoop_scalar_spec sep pfx pfx hp xs hs 0 dst
    | succ k =>
      simp only [if_pos rfl]
      exact frwiArrLoop_scalar_spec sep pfx (by omega) xs hs 0 dst
  | some m =>
    cases hp : pfx.length with
    | zero =>
      simp only [if_pos rfl, flatten_recursive_no_id_manipulation]
      exact frnmArrLoop_scalar_spec m sep pfx pfx hp xs hs 0 dst
    | succ k =>
      simp only [if_pos rfl, flatten_recursive_with_id_manipulation]
      exact frwimArrLoop_scalar_spec m sep pfx (by omega) xs hs 0 dst

/-- C9: for every flatten invocation on an array input, the derived key
token for element i is the 1-based index rendered as a decimal string,
composed with the prefix and separator exactly as for object keys, and the
manipulation is never applied to these tokens: (a) non-recursive flatten
of any array equals the reference key formula for EVERY (even present)
manipulation; (b) recursive flatten of an all-scalar array likewise equals
the same manipulation-free formula for every manipulation. -/
theorem c9_array_flatten_keys :
    (∀ (man : Option (String → String)) (sep pfx : String) (xs : List Json)
        (dst : JMap),
      flatten man sep pfx (Json.arr xs) dst false =
        flattenArrayKeysSpec pfx sep 0 xs dst) ∧
    (∀ (man : Option (String → String)) (sep pfx : String) (xs : List Json)
        (dst : JMap), xs.all isScalar = true →
      flatten man sep pfx (Json.arr xs) dst true =
        flattenArrayKeysSpec pfx sep 0 xs dst) :=
  ⟨flatten_arr_single_level,
   fun man sep pfx xs dst hs => flatten_arr_recursive_scalars man sep pfx xs dst hs⟩

theorem c9_witness :
    (flatten none "_" "new" (Json.arr [Json.str "a", Json.str "b"]) [] false =
      flattenArrayKeysSpec "new" "_" 0 [Json.str "a", Json.str "b"] []) ∧
    ([Json.str "a", Json.num 1].all isScalar = true ∧
      flatten (some (fun s => s ++ "!")) "_" "p"
          (Json.arr [Json.str "a", Json.num 1]) [] true =
        flattenArrayKeysSpec "p" "_" 0 [Json.str "a", Json.num 1] []) :=
  ⟨c9_array_flatten_keys.1 none "_" "new" [Json.str "a", Json.str "b"] [],
   ⟨rfl, c9_array_flatten_keys.2 (some (fun s => s ++ "!")) "_" "p"
      [Json.str "a", Json.num 1] [] rfl⟩⟩

/-! ### C10: the error channel of the built-in rules -/

def Destination.nsOf : Destination → List Namespace
  | .direct ns _ => ns
  | .directArray ns _ _ => ns
  | .flattenDirect ns _ _ _ _ _ => ns
  | .flattenArray ns _ _ _ _ _ _ => ns

/-- Whether the destination-prefix walk panics depends only on the path
and the map walked, not on the update applied at the end. -/
theorem getLastUpdate_isSome_congr (path : List Namespace) (f g : JMap → JMap) :
    ∀ m, (getLastUpdate path f m).isSome = (getLastUpdate path g m).isSome := by
  induction path with
  | nil => intro m; rfl
  | cons ns rest ih =>
    intro m
    simp only [getLastUpdate]
    cases hc : (match lookupJ m ns.id with
      | some v => v
      | none =>
        match ns with
        | .object _ => Json.obj []
        | .array _ index => Json.arr (List.replicate index Json.null)) <;>
      simp [Option.isSome_map, ih]

/-- C10 counterexample: a Direct rule whose destination prefix-path is the
single Object segment "a", applied to an output map whose entry "a" holds
a string: `get_last` panics on `as_object_mut().unwrap()`, so `apply` does
not return `Ok(())` — it aborts (`none`) — refuting the claim for this
destination map. -/
theorem c10_apply_panics :
    Transform.apply ⟨.direct "x", .direct [Namespace.object "a"] "b"⟩
      Json.null [("a", Json.str "x")] = none := rfl

/-- C10 amended: (i) the built-in rules never use the error channel — any
returned value is `Ok`; (ii) whenever the destination-prefix walk
succeeds (does not panic) on the given map, `apply` returns `Ok` for every
source value — missing or type-mismatched SOURCES never surface as errors;
(iii) a walk along Object-only segments starting from an empty output map
always succeeds. A non-object value sitting at a walked prefix key makes
apply panic (see the counterexample), not return an error. -/
theorem c10_apply_never_err :
    (∀ (t : Transform) (src : Json) (dst : JMap) (r : Except Error JMap),
      Transform.apply t src dst = some r → ∃ mm, r = .ok mm) ∧
    (∀ (t : Transform) (src : Json) (dst : JMap),
      (getLastUpdate t.destination.nsOf (fun mm => mm) dst).isSome = true →
      ∃ mm, Transform.apply t src dst = some (.ok mm)) ∧
    (∀ (path : List Namespace), (∀ ns ∈ path, ns.isObject = true) →
      ∀ (f : JMap → JMap), (getLastUpdate path f []).isSome = true) := by
  refine ⟨?_, ?_, ?_⟩
  · intro t src dst r h
    unfold Transform.apply at h
    cases hd : t.destination <;> rw [hd] at h <;> dsimp only at h
    case direct ns id =>
      rcases Option.map_eq_some'.mp h with ⟨mm, _, hm⟩
      exact ⟨mm, hm.symm⟩
    case directArray ns id index =>
      rcases Option.map_eq_some'.mp h with ⟨mm, _, hm⟩
      exact ⟨mm, hm.symm⟩
    case flattenDirect ns id pfx sep man recursive =>
      cases id <;> dsimp only at h <;>
        (rcases Option.map_eq_some'.mp h with ⟨mm, _, hm⟩; exact ⟨mm, hm.symm⟩)
    case flattenArray ns id pfx sep man index recursive =>
      rcases Option.map_eq_some'.mp h with ⟨mm, _, hm⟩
      exact ⟨mm, hm.symm⟩
  · intro t src dst hw
    unfold Transform.apply
    cases hd : t.destination <;> rw [hd] at hw <;>
      dsimp only [Destination.nsOf] at hw <;> dsimp only
    case direct ns id =>
      obtain ⟨mm, hmm⟩ : ∃ mm, getLastUpdate ns
          (fun m => insertJ m id (sourceEval t.source src)) dst = some mm := by
        apply Option.isSome_iff_exists.mp
        rw [getLastUpdate_isSome_congr ns _ (fun mm => mm) dst]
        exact hw
      exact ⟨mm, by rw [hmm]; rfl⟩
    case directArray ns id index =>
      obtain ⟨mm, hmm⟩ : ∃ mm, getLastUpdate ns
          (directArrayWrite id index (sourceEval t.source src)) dst = some mm := by
        apply Option.isSome_iff_exists.mp
        rw [getLastUpdate_isSome_congr ns _ (fun mm => mm) dst]
        exact hw
      exact ⟨mm, by rw [hmm]; rfl⟩
    case flattenDirect ns id pfx sep man recursive =>
      cases id with
      | some id =>
        obtain ⟨mm, hmm⟩ : ∃ mm, getLastUpdate ns
            (fun m => insertJ m id
              (.obj (flatten man sep pfx (sourceEval t.source src) [] recursive)))
            dst = some mm := by
          apply Option.isSome_iff_exists.mp
          rw [getLastUpdate_isSome_congr ns _ (fun mm => mm) dst]
          exact hw
        refine ⟨mm, ?_⟩
        dsimp only
        rw [hmm]
        rfl
      | none =>
        obtain ⟨mm, hmm⟩ : ∃ mm, getLastUpdate ns
            (fun m => flatten man sep pfx (sourceEval t.source src) m recursive)
            dst = some mm := by
          apply Option.isSome_iff_exists.mp
          rw [getLastUpdate_isSome_congr ns _ (fun mm => mm) dst]
          exact hw
        refine ⟨mm, ?_⟩
        dsimp only
        rw [hmm]
        rfl
    case flattenArray ns id pfx sep man index recursive =>
      obtain ⟨mm, hmm⟩ : ∃ mm, getLastUpdate ns
          (flattenArrayWrite id index pfx sep man recursive
            (sourceEval t.source src)) dst = some mm := by
        apply Option.isSome_iff_exists.mp
        rw [getLastUpdate_isSome_congr ns _ (fun mm => mm) dst]
        exact hw
      exact ⟨mm, by rw [hmm]; rfl⟩
  · intro path hall f
    induction path with
    | nil => rfl
    | cons ns rest ih =>
      have hos : ns.isObject = true := hall ns (by simp)
      cases ns with
      | object id =>
        have hrest : ∀ ns ∈ rest, ns.isObject = true :=
          fun ns hns => hall ns (by simp [hns])
        simp only [getLastUpdate, Namespace.id, lookupJ]
        have hsome := ih hrest
        cases hg : getLastUpdate rest f [] with
        | none => rw [hg] at hsome; cases hsome
        | some kvs => rfl
      | array id index => simp [Namespace.isObject] at hos

theorem c10_witness :
    ∃ mm, Transform.apply
      ⟨.constant .null, .direct [Namespace.object "a"] "b"⟩ Json.null []
        = some (.ok mm) :=
  c10_apply_never_err.2.1
    ⟨.constant .null, .direct [Namespace.object "a"] "b"⟩ Json.null [] rfl

end Bumblebee
